import Mathlib

/-!
Verification of the parallel URL-candidate validation engine of the
fashion-scraper API (source: src/scrape_api.py).

The Python code is shallowly embedded as executable Lean functions.
HTTP traffic is represented by a `FetchResult` per candidate (a response,
or a raised transport error); the nondeterministic completion order of the
thread pool driving `as_completed` is an explicit permutation parameter;
the cryptographic digest functions (`hashlib.sha1` / `hashlib.md5`, which
live outside the repository) are abstract function parameters.
-/

/-- Values stored in the JSON-like metadata dictionaries of the Python
code (strings such as suffixes and regions, and integer positions). -/
inductive JVal where
  | s (v : String)
  | n (v : Nat)
deriving DecidableEq

/-- A Python dict is modelled as an insertion-ordered association list
with unique keys (the uniqueness is an invariant of Python dicts and is
hypothesised where it matters). -/
abbrev MDict := List (String × JVal)

/-- A candidate, as consumed by `validate_urls_parallel`: a URL together
with its opaque metadata dict. -/
abbrev Cand := String × MDict

/-- Lookup of a key in a dict, returning the value of the first (hence,
for unique keys, the only) binding. -/
def dictGet (d : MDict) (k : String) : Option JVal :=
  match d with
  | [] => none
  | (k1, v1) :: rest => if k1 = k then some v1 else dictGet rest k

/-- Assignment `d[k] = v` on a Python dict: replace the value of an
existing binding in place, otherwise append the new binding at the end. -/
def setKey (d : MDict) (k : String) (v : JVal) : MDict :=
  match d with
  | [] => [(k, v)]
  | (k1, v1) :: rest => if k1 = k then (k, v) :: rest else (k1, v1) :: setKey rest k v

/-- Python `base.update(upd)`: apply every binding of `upd`, in order,
to `base` via `setKey`. -/
def dictUpdate (base upd : MDict) : MDict :=
  upd.foldl (fun d p => setKey d p.1 p.2) base

/-- An HTTP response as observed by the validation code: status code,
Content-Type header value, and raw body bytes. -/
structure HttpResponse where
  status : Nat
  contentType : String
  body : List Nat
deriving DecidableEq

/-- Result of one `session.get` call: a response, or a raised transport
exception (timeout, connection failure, DNS failure, TLS failure, ...). -/
inductive FetchResult where
  | ok (r : HttpResponse)
  | exn
deriving DecidableEq

/-- The tuple `(url, is_valid, content, hash, metadata)` returned by
`validate_single_url` and `validate_replay_url`. -/
structure Outcome where
  url : String
  valid : Bool
  content : Option (List Nat)
  hash : Option String
  meta : MDict
deriving DecidableEq

/-- Substring containment on character lists, the semantics of the
Python expression `pat in s`. -/
def containsSub (pat : List Char) : List Char → Bool
  | [] => pat.isEmpty
  | c :: rest => pat.isPrefixOf (c :: rest) || containsSub pat rest

/-- The check `"image" in content_type` after the code lowercases the
Content-Type header with `.lower()` (lowering applied per character). -/
def containsImage (ct : String) : Bool :=
  containsSub "image".toList (ct.toList.map Char.toLower)

/-- Embedding of `validate_single_url` (src/scrape_api.py lines 62-74).
`hashFn` abstracts `sha1_hash` (hashlib, outside the repository);
`min_bytes` is a natural number since every call site passes a positive
literal. The Python truthiness test `r.content` is the explicit
nonemptiness conjunct. -/
def validate_single_url (c : Cand) (fr : FetchResult) (hashFn : List Nat → String)
    (min_bytes : Nat) : Outcome :=
  match fr with
  | .exn => ⟨c.1, false, none, none, c.2⟩
  | .ok r =>
    if r.status = 200 ∧ r.body.length ≠ 0 ∧ min_bytes < r.body.length then
      if containsImage r.contentType = true ∨ 20000 < r.body.length then
        ⟨c.1, true, some r.body, some (hashFn r.body), c.2⟩
      else ⟨c.1, false, none, none, c.2⟩
    else ⟨c.1, false, none, none, c.2⟩

/-- Helper for `url_order`: index of the last occurrence of `u` among the
candidate URLs, offset by `k` (a dict comprehension keeps the last value
written for a duplicated key). -/
def urlKeyAux (u : String) : List Cand → Nat → Option Nat
  | [], _ => none
  | c :: rest, k =>
    match urlKeyAux u rest (k + 1) with
    | some j => some j
    | none => if c.1 = u then some k else none

/-- The sort key `url_order.get(url, 999)` used by the engine
(src/scrape_api.py line 98). -/
def urlKey (cands : List Cand) (u : String) : Nat :=
  (urlKeyAux u cands 0).getD 999

/-- Position of a URL in the input candidate list (its submission
index); for pairwise-distinct URLs this agrees with `urlKey`. -/
def submissionIdx (cands : List Cand) (u : String) : Nat :=
  List.indexOf u (cands.map Prod.fst)

/-- The per-candidate outcomes in submission order: outcome `i` is the
result of the fetch submitted for candidate `i`. The out-of-range branch
is never reached. -/
def outcomesWith (f : Nat → Cand → Outcome) (cands : List Cand) : List Outcome :=
  (List.range cands.length).map (fun i =>
    match cands[i]? with
    | some c => f i c
    | none => ⟨"", false, none, none, []⟩)

/-- Outcomes of `validate_single_url` across the candidate list, with
fetch `i` resolving to `fetch i`. -/
def outcomesOf (cands : List Cand) (fetch : Nat → FetchResult)
    (hashFn : List Nat → String) (min_bytes : Nat) : List Outcome :=
  outcomesWith (fun i c => validate_single_url c (fetch i) hashFn min_bytes) cands

/-- The `as_completed` collection loop: futures are consumed in the
completion order given by the index list `order`, and only outcomes whose
`is_valid` flag is set are appended to `results`. -/
def collectValid (outs : List Outcome) (order : List Nat) : List Outcome :=
  order.filterMap (fun i =>
    match outs[i]? with
    | some o => if o.valid = true then some o else none
    | none => none)

/-- The comparison underlying `results.sort(key = url_order.get ...)`. -/
def subKeyLE (cands : List Cand) : Outcome → Outcome → Prop :=
  fun a b => urlKey cands a.url ≤ urlKey cands b.url

instance (cands : List Cand) : DecidableRel (subKeyLE cands) := by
  unfold subKeyLE; exact fun a b => Nat.decLe _ _

instance (cands : List Cand) : IsTotal Outcome (subKeyLE cands) :=
  ⟨fun a b => Nat.le_total _ _⟩

instance (cands : List Cand) : IsTrans Outcome (subKeyLE cands) :=
  ⟨fun _ _ _ hab hbc => Nat.le_trans hab hbc⟩

/-- The stable sort `results.sort(key=lambda x: url_order.get(x[0], 999))`
(Python Timsort is stable; insertion sort is a stable model). -/
def sortBySubmission (cands : List Cand) (l : List Outcome) : List Outcome :=
  List.insertionSort (subKeyLE cands) l

/-- The final collection loop of the engine: walk the sorted outcomes,
break as soon as `len(images) >= max_images`, and keep an outcome only
when its hash is truthy (not None, not empty) and not yet seen.
`max_images` is an Int, as Python callers may pass any integer. -/
def dedupLoop (maxImages : Int) : Nat → List String → List Outcome → List Outcome
  | _, _, [] => []
  | cnt, seen, o :: rest =>
    if maxImages ≤ (cnt : Int) then []
    else
      match o.hash with
      | some h =>
        if h ≠ "" ∧ h ∉ seen then o :: dedupLoop maxImages (cnt + 1) (h :: seen) rest
        else dedupLoop maxImages cnt seen rest
      | none => dedupLoop maxImages cnt seen rest

/-- The same loop with the `max_images` break removed; the capped loop is
its `take`. -/
def dedupNoCap : List String → List Outcome → List Outcome
  | _, [] => []
  | seen, o :: rest =>
    match o.hash with
    | some h =>
      if h ≠ "" ∧ h ∉ seen then o :: dedupNoCap (h :: seen) rest
      else dedupNoCap seen rest
    | none => dedupNoCap seen rest

/-- Collection, sorting and dedup-with-cap, shared by
`validate_urls_parallel` and the inlined copy in `scrape_replay`. -/
def corePipeline (cands : List Cand) (outs : List Outcome) (maxImages : Int)
    (order : List Nat) : List Outcome :=
  dedupLoop maxImages 0 [] (sortBySubmission cands (collectValid outs order))

/-- The kept outcomes of `validate_urls_parallel` (src/scrape_api.py
lines 76-115), before each is serialised to a dict: guard for an empty
input list, fan out, collect in completion order, sort by submission
order, deduplicate by hash and cap at `max_images`. -/
def runKept (cands : List Cand) (fetch : Nat → FetchResult) (hashFn : List Nat → String)
    (min_bytes : Nat) (maxImages : Int) (order : List Nat) : List Outcome :=
  if cands.isEmpty then []
  else corePipeline cands (outcomesOf cands fetch hashFn min_bytes) maxImages order

/-- The dict `img = {"url": url}; img.update(metadata)` built for each
kept outcome. -/
def imageDict (o : Outcome) : MDict :=
  dictUpdate [("url", JVal.s o.url)] o.meta

/-- Embedding of `validate_urls_parallel`: the list of image dicts. The
Python loop builds each dict at the moment the outcome is kept; since the
dict does not feed back into the loop state, this equals mapping
`imageDict` over the kept outcomes. -/
def validate_urls_parallel (cands : List Cand) (fetch : Nat → FetchResult)
    (hashFn : List Nat → String) (min_bytes : Nat) (maxImages : Int)
    (order : List Nat) : List MDict :=
  (runKept cands fetch hashFn min_bytes maxImages order).map imageDict

/-- Outcomes of `validate_single_url` keep the candidate URL. -/
theorem validate_single_url_url (c : Cand) (fr : FetchResult)
    (hashFn : List Nat → String) (mb : Nat) :
    (validate_single_url c fr hashFn mb).url = c.1 := by
  cases fr <;> simp only [validate_single_url] <;> split_ifs <;> rfl

/-- Outcomes of `validate_single_url` keep the candidate metadata. -/
theorem validate_single_url_meta (c : Cand) (fr : FetchResult)
    (hashFn : List Nat → String) (mb : Nat) :
    (validate_single_url c fr hashFn mb).meta = c.2 := by
  cases fr <;> simp only [validate_single_url] <;> split_ifs <;> rfl

/-- The watermark hash set of the Replay handler (src/scrape_api.py,
`WATERMARK_HASHES`). -/
def watermarkHashes : List String := ["b7b532cb2ea2ae3c91decf2bc87b1c01"]

/-- The known placeholder image byte size of the Replay handler
(src/scrape_api.py, `WATERMARK_SIZE`). -/
def watermarkSize : Nat := 26238

/-- Embedding of the inner `validate_replay_url` of `scrape_replay`
(src/scrape_api.py lines 1155-1170): status 200, at least 8000 body
bytes, an image Content-Type, and neither the placeholder byte size nor
a placeholder hash. `hashFn` abstracts the md5 hexdigest. -/
def validate_replay_url (c : Cand) (fr : FetchResult)
    (hashFn : List Nat → String) : Outcome :=
  match fr with
  | .exn => ⟨c.1, false, none, none, c.2⟩
  | .ok r =>
    if r.status = 200 ∧ 8000 ≤ r.body.length then
      if containsImage r.contentType = true then
        if r.body.length = watermarkSize then ⟨c.1, false, none, none, c.2⟩
        else if hashFn r.body ∈ watermarkHashes then ⟨c.1, false, none, none, c.2⟩
        else ⟨c.1, true, some r.body, some (hashFn r.body), c.2⟩
      else ⟨c.1, false, none, none, c.2⟩
    else ⟨c.1, false, none, none, c.2⟩

/-- The kept outcomes of the Replay collection loop, which repeats the
engine pipeline (collect in completion order, sort by submission order,
dedup, cap) around `validate_replay_url`. -/
def replayKept (cands : List Cand) (fetch : Nat → FetchResult)
    (hashFn : List Nat → String) (maxImages : Int) (order : List Nat) : List Outcome :=
  corePipeline cands
    (outcomesWith (fun i c => validate_replay_url c (fetch i) hashFn) cands)
    maxImages order

/-- The `status_forcelist` of the `Retry` object built by `make_session`
(src/scrape_api.py line 31). -/
def statusForcelist : List Nat := [429, 500, 502, 503, 504]

/-- The `total` argument of the `Retry` object: the maximum number of
retries allowed after the initial request (urllib3 semantics). -/
def retryTotal : Nat := 3

/-- Modelled urllib3 `Retry` semantics for the session of `make_session`
(the retry loop itself lives in urllib3, outside this repository): the
status codes of the successive attempts actually issued for one request.
`resp k` is the status the server would return to attempt `k`; after any
attempt whose status is in the forcelist, a retry is issued as long as
retries remain. Retries on connection errors are outside this model. -/
def attemptsFrom (resp : Nat → Nat) : Nat → Nat → List Nat
  | k, retriesLeft =>
    if resp k ∈ statusForcelist then
      match retriesLeft with
      | 0 => [resp k]
      | r + 1 => resp k :: attemptsFrom resp (k + 1) r
    else [resp k]

/-- Statuses of all HTTP attempts made for one candidate under the
session configuration `Retry(total=3, status_forcelist=(429, 500, 502,
503, 504))` of `make_session`. -/
def make_session_attempts (resp : Nat → Nat) : List Nat :=
  attemptsFrom resp 0 retryTotal

/-- The value `img.get("suffix", "")` of a BOSS image dict (every BOSS
candidate stores a string suffix). -/
def suffixOf (img : MDict) : String :=
  match dictGet img "suffix" with
  | some (JVal.s s) => s
  | _ => ""

/-- The test `img.get("suffix", "").startswith("1")` of `scrape_boss`
(prefix test taken on the character list). -/
def startsOne (img : MDict) : Bool :=
  List.isPrefixOf "1".toList (suffixOf img).toList

/-- The BOSS reorder step (src/scrape_api.py lines 162-165): model shots
(suffix not starting with "1") first, product shots last, then the slice
`[:max_images]`. The slice is modelled for nonnegative `max_images`
(negative Python slice bounds mean something else and no caller uses
them). -/
def bossReorder (images : List MDict) (maxImages : Int) : List MDict :=
  ((images.filter (fun i => !(startsOne i))) ++ images.filter startsOne).take maxImages.toNat

/-- The BOSS index/filename assignment loop (src/scrape_api.py lines
167-169): entry `idx` (0-based) receives `index = idx + 1` and
`filename = formatted_sku + "-" + (idx + 1)`. -/
def bossAssign (sku : String) (images : List MDict) : List MDict :=
  images.enum.map (fun p =>
    setKey (setKey p.2 "index" (JVal.n (p.1 + 1))) "filename"
      (JVal.s (sku ++ "-" ++ toString (p.1 + 1))))

/-- The full BOSS post-processing applied to the engine output:
reorder, truncate, then assign indices and filenames. -/
def bossPostprocess (images : List MDict) (maxImages : Int) (sku : String) : List MDict :=
  bossAssign sku (bossReorder images maxImages)

theorem dictGet_setKey_self (d : MDict) (k : String) (v : JVal) :
    dictGet (setKey d k v) k = some v := by
  induction d with
  | nil => simp [setKey, dictGet]
  | cons p rest ih =>
    obtain ⟨k1, v1⟩ := p
    by_cases h : k1 = k <;> simp [setKey, dictGet, h, ih]

theorem dictGet_setKey_ne (d : MDict) (k k1 : String) (v : JVal) (h : k1 ≠ k) :
    dictGet (setKey d k1 v) k = dictGet d k := by
  induction d with
  | nil => simp [setKey, dictGet, h]
  | cons p rest ih =>
    obtain ⟨k2, v2⟩ := p
    by_cases h2 : k2 = k1 <;> simp [setKey, dictGet, h2, ih]
    · subst h2; simp [h, dictGet]

theorem dictGet_dictUpdate_of_notMem (base upd : MDict) (k : String)
    (h : k ∉ upd.map Prod.fst) : dictGet (dictUpdate base upd) k = dictGet base k := by
  induction upd generalizing base with
  | nil => rfl
  | cons p rest ih =>
    simp only [List.map_cons, List.mem_cons] at h
    push_neg at h
    simp only [dictUpdate, List.foldl_cons]
    rw [show (List.foldl (fun d p => setKey d p.1 p.2) (setKey base p.1 p.2) rest) =
        dictUpdate (setKey base p.1 p.2) rest from rfl]
    rw [ih _ h.2, dictGet_setKey_ne _ _ _ _ (Ne.symm h.1)]

theorem dictGet_dictUpdate_of_mem (base upd : MDict) (k : String) (v : JVal)
    (hnd : (upd.map Prod.fst).Nodup) (hmem : (k, v) ∈ upd) :
    dictGet (dictUpdate base upd) k = some v := by
  induction upd generalizing base with
  | nil => cases hmem
  | cons p rest ih =>
    simp only [List.map_cons, List.nodup_cons] at hnd
    simp only [dictUpdate, List.foldl_cons]
    rw [show (List.foldl (fun d p => setKey d p.1 p.2) (setKey base p.1 p.2) rest) =
        dictUpdate (setKey base p.1 p.2) rest from rfl]
    rcases List.mem_cons.mp hmem with heq | hrest
    · subst heq
      rw [dictGet_dictUpdate_of_notMem _ _ _ (by simpa using hnd.1), dictGet_setKey_self]
    · exact ih _ hnd.2 hrest

/-- C4: the fetch used by `validate_urls_parallel` judges a response
valid exactly when its status is 200, its body length strictly exceeds
`min_bytes`, and either the (lowercased) Content-Type contains "image"
or the body length exceeds the larger fallback threshold 20000; a body
of exactly `min_bytes` is rejected and one of `min_bytes + 1` is
accepted when the content-type or fallback condition holds. -/
theorem c4_fetch_validity_rule (c : Cand) (hashFn : List Nat → String)
    (min_bytes : Nat) (r : HttpResponse) :
    ((validate_single_url c (FetchResult.ok r) hashFn min_bytes).valid = true ↔
      (r.status = 200 ∧ min_bytes < r.body.length ∧
        (containsImage r.contentType = true ∨ 20000 < r.body.length))) ∧
    (r.body.length = min_bytes →
      (validate_single_url c (FetchResult.ok r) hashFn min_bytes).valid = false) ∧
    (r.status = 200 ∧ r.body.length = min_bytes + 1 ∧
        (containsImage r.contentType = true ∨ 20000 < r.body.length) →
      (validate_single_url c (FetchResult.ok r) hashFn min_bytes).valid = true) := by
  refine ⟨?_, fun hlen => ?_, fun hc => ?_⟩ <;> simp only [validate_single_url] <;>
    split_ifs with h1 h2
  · exact iff_of_true rfl ⟨h1.1, h1.2.2, h2⟩
  · exact iff_of_false (by simp) (fun hc => h2 hc.2.2)
  · exact iff_of_false (by simp) (fun hc => h1 ⟨hc.1, by omega, hc.2.1⟩)
  · exact absurd h1.2.2 (by omega)
  · rfl
  · rfl
  · rfl
  · exact absurd hc.2.2 h2
  · exact absurd ⟨hc.1, by omega, by omega⟩ h1

/-- Closed witness for C4 at a concrete response: a 200 image response
whose body has exactly `min_bytes = 5` bytes is rejected. -/
theorem c4_fetch_validity_rule_witness :
    (HttpResponse.mk 200 "image/jpeg" [1, 2, 3, 4, 5]).body.length = 5 ∧
    (validate_single_url ("u", []) (FetchResult.ok ⟨200, "image/jpeg", [1, 2, 3, 4, 5]⟩)
      (fun _ => "h") 5).valid = false :=
  ⟨by decide, (c4_fetch_validity_rule ("u", []) (fun _ => "h") 5 ⟨200, "image/jpeg", [1, 2, 3, 4, 5]⟩).2.1 (by decide)⟩

/-- C6: on a transport error (a raised exception from the underlying
request), `validate_single_url` returns a not-valid outcome with no
content and no hash, and (being a total function on `FetchResult`)
propagates no exception to its caller. -/
theorem c6_transport_error_not_valid (c : Cand) (hashFn : List Nat → String)
    (min_bytes : Nat) :
    validate_single_url c FetchResult.exn hashFn min_bytes =
      { url := c.1, valid := false, content := none, hash := none, meta := c.2 } := rfl

theorem dedupLoop_sublist (maxImages : Int) :
    ∀ (l : List Outcome) (cnt : Nat) (seen : List String),
      List.Sublist (dedupLoop maxImages cnt seen l) l := by
  intro l
  induction l with
  | nil => intro _ _; exact List.nil_sublist _
  | cons o rest ih =>
    intro cnt seen
    rcases ho : o.hash with _ | h <;> simp only [dedupLoop, ho] <;> split_ifs <;>
      first
        | exact List.nil_sublist _
        | exact List.Sublist.cons₂ o (ih _ _)
        | exact List.Sublist.cons o (ih _ _)

theorem mem_sortBySubmission {cands : List Cand} {l : List Outcome} {x : Outcome} :
    x ∈ sortBySubmission cands l ↔ x ∈ l :=
  List.mem_insertionSort _

theorem collectValid_valid {outs : List Outcome} {order : List Nat} {o : Outcome}
    (h : o ∈ collectValid outs order) : o.valid = true := by
  obtain ⟨i, _, hf⟩ := List.mem_filterMap.mp h
  split at hf
  · split_ifs at hf with hv <;>
      first
        | (cases hf; exact hv)
        | cases hf
  · cases hf

theorem corePipeline_valid {cands : List Cand} {outs : List Outcome}
    {maxImages : Int} {order : List Nat} {o : Outcome}
    (h : o ∈ corePipeline cands outs maxImages order) : o.valid = true :=
  collectValid_valid (mem_sortBySubmission.mp ((dedupLoop_sublist _ _ _ _).subset h))

/-- C8: a Replay candidate whose 200-status response carries an image
Content-Type is nonetheless judged invalid when its body length equals
the placeholder size 26238 or its body hash lies in the placeholder hash
set; and the Replay result list only ever contains outcomes judged
valid, so such a candidate is excluded from the results. -/
theorem c8_watermark_exclusion (c : Cand) (hashFn : List Nat → String)
    (r : HttpResponse) (hs : r.status = 200)
    (hc : containsImage r.contentType = true)
    (hw : r.body.length = watermarkSize ∨ hashFn r.body ∈ watermarkHashes) :
    (validate_replay_url c (FetchResult.ok r) hashFn).valid = false ∧
    ∀ (cands : List Cand) (fetch : Nat → FetchResult) (maxImages : Int)
      (order : List Nat) (o : Outcome),
      o ∈ replayKept cands fetch hashFn maxImages order → o.valid = true := by
  constructor
  · simp only [validate_replay_url]
    split_ifs <;>
      first
        | rfl
        | (exfalso; rcases hw with hw | hw <;> simp_all)
  · intro cands fetch maxImages order o ho
    exact corePipeline_valid ho

/-- Closed witness for C8: a 200, image-typed response of exactly 26238
bytes is judged invalid by the Replay validator. -/
theorem c8_watermark_exclusion_witness :
    ((HttpResponse.mk 200 "image/jpeg" (List.replicate 26238 0)).status = 200 ∧
      containsImage "image/jpeg" = true ∧
      (List.replicate 26238 (0 : Nat)).length = watermarkSize) ∧
    (validate_replay_url ("u", []) (FetchResult.ok ⟨200, "image/jpeg", List.replicate 26238 0⟩)
      (fun _ => "x")).valid = false :=
  ⟨⟨rfl, by decide, by rw [List.length_replicate]; rfl⟩,
    (c8_watermark_exclusion ("u", []) (fun _ => "x") ⟨200, "image/jpeg", List.replicate 26238 0⟩
      rfl (by decide) (Or.inl (by rw [List.length_replicate]; rfl))).1⟩

theorem attemptsFrom_ne_nil (resp : Nat → Nat) (k rl : Nat) :
    attemptsFrom resp k rl ≠ [] := by
  cases rl <;> rw [attemptsFrom] <;> split_ifs <;> simp

theorem attemptsFrom_length (resp : Nat → Nat) :
    ∀ (rl k : Nat), (attemptsFrom resp k rl).length ≤ rl + 1 := by
  intro rl
  induction rl with
  | zero => intro k; rw [attemptsFrom]; split_ifs <;> simp
  | succ r ih =>
    intro k
    rw [attemptsFrom]
    split_ifs with h
    · simpa using Nat.succ_le_succ (ih (k + 1))
    · simp

theorem attemptsFrom_dropLast (resp : Nat → Nat) :
    ∀ (rl k : Nat), ∀ s ∈ (attemptsFrom resp k rl).dropLast, s ∈ statusForcelist := by
  intro rl
  induction rl with
  | zero =>
    intro k s hs
    rw [attemptsFrom] at hs
    split_ifs at hs <;> simp at hs
  | succ r ih =>
    intro k s hs
    rw [attemptsFrom] at hs
    split_ifs at hs with h
    · rw [List.dropLast_cons_of_ne_nil (attemptsFrom_ne_nil resp (k + 1) r)] at hs
      rcases List.mem_cons.mp hs with rfl | hs
      · exact h
      · exact ih (k + 1) s hs
    · simp at hs

/-- C7 (amended): the session of `make_session` retries only after a
status in the forcelist {429, 500, 502, 503, 504}; it allows at most
`retryTotal = 3` retries after the initial request, hence at most 4 HTTP
attempts total per candidate (not 3: urllib3 `Retry(total=3)` counts
retries, not attempts). -/
theorem c7_retry_policy (resp : Nat → Nat) :
    (make_session_attempts resp).length ≤ retryTotal + 1 ∧
    (∀ s ∈ (make_session_attempts resp).dropLast, s ∈ statusForcelist) ∧
    (∀ s, s ∈ statusForcelist ↔ (s = 429 ∨ s = 500 ∨ s = 502 ∨ s = 503 ∨ s = 504)) :=
  ⟨attemptsFrom_length resp retryTotal 0,
    attemptsFrom_dropLast resp retryTotal 0,
    fun s => by simp [statusForcelist]⟩

/-- Closed witness for C7: under a server that always answers 503, the
first attempt is a non-final, retry-triggering one. -/
theorem c7_retry_policy_witness :
    (503 ∈ (make_session_attempts (fun _ => 503)).dropLast) ∧ 503 ∈ statusForcelist :=
  ⟨by decide, (c7_retry_policy (fun _ => 503)).2.1 503 (by decide)⟩

/-- C7 counterexample: with every attempt answered 503, the session
issues 4 HTTP attempts, so the claimed bound of at most 3 attempts total
is false. -/
theorem c7_counterexample :
    ¬ ((make_session_attempts (fun _ => 503)).length ≤ 3) := by decide

theorem dedupLoop_of_le (maxImages : Int) (cnt : Nat) (seen : List String)
    (l : List Outcome) (h : maxImages ≤ (cnt : Int)) :
    dedupLoop maxImages cnt seen l = [] := by
  cases l with
  | nil => rfl
  | cons o rest => rw [dedupLoop]; simp [h]

theorem collectValid_of_all_invalid {outs : List Outcome} (order : List Nat)
    (h : ∀ o ∈ outs, o.valid = false) : collectValid outs order = [] := by
  apply List.filterMap_eq_nil.mpr
  intro i _
  rcases hv : outs[i]? with _ | o2
  · rfl
  · have : o2.valid = false := h o2 (List.getElem?_mem hv)
    simp [this]

/-- C5 (amended): the Engine does not reject degenerate inputs with a
distinguished precondition-violation signal. An empty candidate list
returns the plain empty list; a non-positive `max_images` returns the
plain empty list; and when every candidate fails validation the result
is the same plain empty list, so the three conditions are
indistinguishable at the return value of `validate_urls_parallel`. -/
theorem c5_degenerate_inputs (cands : List Cand) (fetch : Nat → FetchResult)
    (hashFn : List Nat → String) (min_bytes : Nat) (maxImages : Int)
    (order : List Nat) :
    (validate_urls_parallel [] fetch hashFn min_bytes maxImages order = []) ∧
    (maxImages ≤ 0 →
      validate_urls_parallel cands fetch hashFn min_bytes maxImages order = []) ∧
    ((∀ o ∈ outcomesOf cands fetch hashFn min_bytes, o.valid = false) →
      validate_urls_parallel cands fetch hashFn min_bytes maxImages order = []) := by
  refine ⟨rfl, fun hm => ?_, fun hv => ?_⟩ <;>
    unfold validate_urls_parallel runKept corePipeline <;>
    split_ifs <;> try rfl
  · rw [dedupLoop_of_le _ _ _ _ (by exact_mod_cast hm)]
    rfl
  · rw [collectValid_of_all_invalid order hv]
    rfl

/-- Closed witness for C5 (amended): a single candidate answering 404
validates nowhere and the Engine returns the empty list. -/
theorem c5_degenerate_inputs_witness :
    (∀ o ∈ outcomesOf [("u", [])] (fun _ => FetchResult.ok ⟨404, "image", [1]⟩)
      (fun _ => "h") 0, o.valid = false) ∧
    validate_urls_parallel [("u", [])] (fun _ => FetchResult.ok ⟨404, "image", [1]⟩)
      (fun _ => "h") 0 5 [0] = [] :=
  ⟨by decide,
    (c5_degenerate_inputs [("u", [])] (fun _ => FetchResult.ok ⟨404, "image", [1]⟩)
      (fun _ => "h") 0 5 [0]).2.2 (by decide)⟩

/-- C5 counterexample: the claim asserts a precondition-violation signal
distinguishable from the all-candidates-fail empty result; in the code
all three calls below return the identical plain empty list (an empty
candidate list, an all-404 candidate list, and a non-positive
`max_images`), so no distinguishable signal exists. -/
theorem c5_counterexample :
    validate_urls_parallel [] (fun _ => FetchResult.exn) (fun _ => "h") 8000 5 [] = [] ∧
    validate_urls_parallel [("u", [])] (fun _ => FetchResult.ok ⟨404, "image", [1]⟩)
      (fun _ => "h") 0 5 [0] = [] ∧
    validate_urls_parallel [("u", [])] (fun _ => FetchResult.ok ⟨200, "image", [1]⟩)
      (fun _ => "h") 0 0 [0] = [] := by
  refine ⟨rfl, by decide, by decide⟩

theorem filter_length_partition {α : Type} (p : α → Bool) (l : List α) :
    (l.filter p).length + (l.filter (fun a => !p a)).length = l.length := by
  induction l with
  | nil => rfl
  | cons a t ih => by_cases h : p a <;> simp [List.filter, h] <;> omega

theorem bossAssign_length (sku : String) (l : List MDict) :
    (bossAssign sku l).length = l.length := by
  simp [bossAssign, List.enum_length]

theorem bossAssign_index (sku : String) (l : List MDict) :
    (bossAssign sku l).map (fun img => dictGet img "index") =
      (List.range l.length).map (fun i => some (JVal.n (i + 1))) := by
  have h1 : ∀ p ∈ l.enum,
      ((fun img => dictGet img "index") ∘ (fun p : Nat × MDict =>
        setKey (setKey p.2 "index" (JVal.n (p.1 + 1))) "filename"
          (JVal.s (sku ++ "-" ++ toString (p.1 + 1))))) p = some (JVal.n (p.1 + 1)) := by
    intro p _
    show dictGet (setKey (setKey p.2 "index" (JVal.n (p.1 + 1))) "filename" _) "index" = _
    rw [dictGet_setKey_ne _ _ _ _ (by decide), dictGet_setKey_self]
  calc (bossAssign sku l).map (fun img => dictGet img "index")
      = l.enum.map (fun p => some (JVal.n (p.1 + 1))) := by
        unfold bossAssign
        rw [List.map_map]
        exact List.map_congr_left h1
    _ = (List.range l.length).map (fun i => some (JVal.n (i + 1))) := by
        rw [show (fun p : Nat × MDict => some (JVal.n (p.1 + 1))) =
            ((fun i => some (JVal.n (i + 1))) ∘ Prod.fst) from rfl,
          ← List.map_map, List.enum_map_fst]

/-- C10: the BOSS/HUGO handler partitions the engine output into the
images whose suffix does not start with "1" followed by those whose
suffix starts with "1", preserves the relative engine order within each
group (each group of the output is a prefix of the corresponding
filtered engine output), truncates the concatenation to at most
`max_images` entries, and only then assigns the consecutive 1-based
`index` values. -/
theorem c10_boss_postprocess (images : List MDict) (maxImages : Int) (sku : String)
    (hm : 0 ≤ maxImages) :
    (bossPostprocess images maxImages sku).length = min maxImages.toNat images.length ∧
    List.Pairwise (fun a b => startsOne a = true → startsOne b = true)
      (bossReorder images maxImages) ∧
    (∃ k, (bossReorder images maxImages).filter (fun i => !(startsOne i)) =
      (images.filter (fun i => !(startsOne i))).take k) ∧
    (∃ k, (bossReorder images maxImages).filter startsOne =
      (images.filter startsOne).take k) ∧
    (bossPostprocess images maxImages sku).map (fun img => dictGet img "index") =
      (List.range (bossPostprocess images maxImages sku).length).map
        (fun i => some (JVal.n (i + 1))) := by
  have hA : ∀ a ∈ images.filter (fun i => !(startsOne i)), startsOne a = false := by
    intro a ha
    have := (List.mem_filter.mp ha).2
    simpa using this
  have hB : ∀ b ∈ images.filter startsOne, startsOne b = true :=
    fun b hb => (List.mem_filter.mp hb).2
  refine ⟨?_, ?_, ?_, ?_, ?_⟩
  · have hlen : ((images.filter (fun i => !(startsOne i))) ++ images.filter startsOne).length
        = images.length := by
      rw [List.length_append]
      have := filter_length_partition startsOne images
      omega
    rw [bossPostprocess, bossAssign_length, bossReorder, List.length_take, hlen]
  · have hpw : List.Pairwise (fun a b => startsOne a = true → startsOne b = true)
        ((images.filter (fun i => !(startsOne i))) ++ images.filter startsOne) := by
      refine List.pairwise_append.mpr ⟨?_, ?_, ?_⟩
      · exact List.pairwise_of_forall_mem_list
          (fun a ha b _ hsa => absurd hsa (by simp [hA a ha]))
      · exact List.pairwise_of_forall_mem_list (fun a _ b hb _ => hB b hb)
      · exact fun a _ b hb _ => hB b hb
    exact List.Pairwise.sublist (List.take_sublist _ _) hpw
  · refine ⟨maxImages.toNat, ?_⟩
    have e1 : List.filter (fun i => !(startsOne i))
        (List.take maxImages.toNat (images.filter (fun i => !(startsOne i)))) =
        List.take maxImages.toNat (images.filter (fun i => !(startsOne i))) :=
      List.filter_eq_self.mpr
        (fun a ha => (List.mem_filter.mp ((List.take_sublist _ _).subset ha)).2)
    have e2 : List.filter (fun i => !(startsOne i))
        (List.take (maxImages.toNat - (images.filter (fun i => !(startsOne i))).length)
          (images.filter startsOne)) = [] :=
      List.filter_eq_nil_iff.mpr
        (fun a ha => by simp [hB a ((List.take_sublist _ _).subset ha)])
    rw [bossReorder, List.take_append_eq_append_take, List.filter_append, e1, e2,
      List.append_nil]
  · refine ⟨maxImages.toNat - (images.filter (fun i => !(startsOne i))).length, ?_⟩
    have e1 : List.filter startsOne
        (List.take maxImages.toNat (images.filter (fun i => !(startsOne i)))) = [] :=
      List.filter_eq_nil_iff.mpr
        (fun a ha => by simp [hA a ((List.take_sublist _ _).subset ha)])
    have e2 : List.filter startsOne
        (List.take (maxImages.toNat - (images.filter (fun i => !(startsOne i))).length)
          (images.filter startsOne)) =
        List.take (maxImages.toNat - (images.filter (fun i => !(startsOne i))).length)
          (images.filter startsOne) :=
      List.filter_eq_self.mpr (fun a ha => hB a ((List.take_sublist _ _).subset ha))
    rw [bossReorder, List.take_append_eq_append_take, List.filter_append, e1, e2,
      List.nil_append]
  · rw [bossPostprocess, bossAssign_index, bossAssign_length]

/-- Closed witness for C10: a concrete engine output with one product
shot (suffix "100") before one model shot (suffix "200") is reordered,
capped at 2 and reindexed 1, 2. -/
theorem c10_boss_postprocess_witness :
    ((0 : Int) ≤ 2) ∧
    (bossPostprocess [[("suffix", JVal.s "100")], [("suffix", JVal.s "200")]] 2 "S").length
      = min (Int.toNat 2) 2 :=
  ⟨by decide,
    (c10_boss_postprocess [[("suffix", JVal.s "100")], [("suffix", JVal.s "200")]] 2 "S"
      (by decide)).1⟩

/-- The valid outcomes in submission order: the deterministic reference
list against which the concurrent engine is compared. -/
def validOutcomes (cands : List Cand) (fetch : Nat → FetchResult)
    (hashFn : List Nat → String) (min_bytes : Nat) : List Outcome :=
  (outcomesOf cands fetch hashFn min_bytes).filter (fun o => o.valid)

theorem urlKeyAux_of_notMem {u : String} : ∀ (l : List Cand) (k : Nat),
    u ∉ l.map Prod.fst → urlKeyAux u l k = none := by
  intro l
  induction l with
  | nil => intro k _; rfl
  | cons c rest ih =>
    intro k hu
    simp only [List.map_cons, List.mem_cons] at hu
    push_neg at hu
    rw [urlKeyAux, ih (k + 1) hu.2]
    exact if_neg (fun hh => hu.1 hh.symm)

theorem urlKeyAux_of_nodup : ∀ (l : List Cand) (k i : Nat) (c : Cand),
    (l.map Prod.fst).Nodup → l[i]? = some c → urlKeyAux c.1 l k = some (k + i) := by
  intro l
  induction l with
  | nil => intro k i c _ hc; simp at hc
  | cons d rest ih =>
    intro k i c hnd hc
    simp only [List.map_cons, List.nodup_cons] at hnd
    cases i with
    | zero =>
      rw [List.getElem?_cons_zero] at hc
      injection hc with hdc
      subst hdc
      rw [urlKeyAux, urlKeyAux_of_notMem rest (k + 1) hnd.1]
      simp
    | succ j =>
      rw [List.getElem?_cons_succ] at hc
      rw [urlKeyAux, ih (k + 1) j c hnd.2 hc]
      simp only []
      congr 1
      omega

theorem urlKey_of_nodup {cands : List Cand} {i : Nat} {c : Cand}
    (hnd : (cands.map Prod.fst).Nodup) (hc : cands[i]? = some c) :
    urlKey cands c.1 = i := by
  rw [urlKey, urlKeyAux_of_nodup cands 0 i c hnd hc]
  simp

theorem outcomesWith_getElem {f : Nat → Cand → Outcome} {cands : List Cand}
    {i : Nat} {c : Cand} (hc : cands[i]? = some c) :
    (outcomesWith f cands)[i]? = some (f i c) := by
  have hi : i < cands.length := by
    by_contra h
    rw [List.getElem?_eq_none (le_of_not_lt h)] at hc
    cases hc
  rw [outcomesWith, List.getElem?_map, List.getElem?_range hi]
  simp [hc]

theorem outcomesWith_pairwise {f : Nat → Cand → Outcome} {cands : List Cand}
    (hnd : (cands.map Prod.fst).Nodup) (hf : ∀ i c, (f i c).url = c.1) :
    List.Pairwise (fun a b => urlKey cands a.url < urlKey cands b.url)
      (outcomesWith f cands) := by
  rw [outcomesWith, List.pairwise_map]
  refine List.Pairwise.imp_of_mem ?_ (List.pairwise_lt_range cands.length)
  intro i j hi hj hij
  rw [List.mem_range] at hi hj
  obtain ⟨ci, hci⟩ : ∃ ci, cands[i]? = some ci := ⟨cands[i], List.getElem?_eq_getElem hi⟩
  obtain ⟨cj, hcj⟩ : ∃ cj, cands[j]? = some cj := ⟨cands[j], List.getElem?_eq_getElem hj⟩
  have e1 : (match cands[i]? with
      | some c => f i c
      | none => (⟨"", false, none, none, []⟩ : Outcome)) = f i ci := by rw [hci]
  have e2 : (match cands[j]? with
      | some c => f j c
      | none => (⟨"", false, none, none, []⟩ : Outcome)) = f j cj := by rw [hcj]
  rw [e1, e2, hf i ci, hf j cj, urlKey_of_nodup hnd hci, urlKey_of_nodup hnd hcj]
  exact hij

theorem range_filterMap_collect : ∀ outs : List Outcome,
    (List.range outs.length).filterMap (fun i =>
      match outs[i]? with
      | some o => if o.valid = true then some o else none
      | none => none) = outs.filter (fun o => o.valid) := by
  intro outs
  induction outs with
  | nil => rfl
  | cons o rest ih =>
    rw [List.length_cons, List.range_succ_eq_map, List.filterMap_cons, List.filterMap_map]
    have hcomp : ((fun i =>
        match (o :: rest)[i]? with
        | some o2 => if o2.valid = true then some o2 else none
        | none => none) ∘ Nat.succ) = (fun i =>
        match rest[i]? with
        | some o2 => if o2.valid = true then some o2 else none
        | none => none) := by
      funext i
      simp only [Function.comp_apply, List.getElem?_cons_succ]
    rw [hcomp, ih]
    by_cases hv : o.valid = true <;> simp [List.filter_cons, hv]

theorem collectValid_perm {outs : List Outcome} {order : List Nat}
    (hperm : order.Perm (List.range outs.length)) :
    (collectValid outs order).Perm (outs.filter (fun o => o.valid)) :=
  (List.Perm.filterMap _ hperm).trans (by rw [range_filterMap_collect])

theorem sortBySubmission_canonical (f : Nat → Cand → Outcome) (cands : List Cand)
    (order : List Nat) (hnd : (cands.map Prod.fst).Nodup)
    (hf : ∀ i c, (f i c).url = c.1)
    (hperm : order.Perm (List.range cands.length)) :
    sortBySubmission cands (collectValid (outcomesWith f cands) order) =
      (outcomesWith f cands).filter (fun o => o.valid) := by
  have hlen : (outcomesWith f cands).length = cands.length := by
    rw [outcomesWith, List.length_map, List.length_range]
  have hperm2 : (collectValid (outcomesWith f cands) order).Perm
      ((outcomesWith f cands).filter (fun o => o.valid)) :=
    collectValid_perm (hlen ▸ hperm)
  have hps : (sortBySubmission cands (collectValid (outcomesWith f cands) order)).Perm
      ((outcomesWith f cands).filter (fun o => o.valid)) :=
    (List.perm_insertionSort _ _).trans hperm2
  have hcanon : List.Pairwise (fun a b => urlKey cands a.url < urlKey cands b.url)
      ((outcomesWith f cands).filter (fun o => o.valid)) :=
    List.Pairwise.sublist (List.filter_sublist _) (outcomesWith_pairwise hnd hf)
  have hsorted : List.Pairwise (subKeyLE cands)
      (sortBySubmission cands (collectValid (outcomesWith f cands) order)) :=
    List.sorted_insertionSort _ _
  have hnodupkeys : ((outcomesWith f cands).filter (fun o => o.valid)).Pairwise
      (fun a b => urlKey cands a.url ≠ urlKey cands b.url) :=
    hcanon.imp (fun hlt => Nat.ne_of_lt hlt)
  have hkeysne : (sortBySubmission cands (collectValid (outcomesWith f cands) order)).Pairwise
      (fun a b => urlKey cands a.url ≠ urlKey cands b.url) := by
    have h1 : (((outcomesWith f cands).filter (fun o => o.valid)).map
        (fun o => urlKey cands o.url)).Nodup := List.pairwise_map.mpr hnodupkeys
    have h2 := ((hps.map (fun o => urlKey cands o.url)).symm.nodup) h1
    exact List.pairwise_map.mp h2
  have hstrict : (sortBySubmission cands (collectValid (outcomesWith f cands) order)).Pairwise
      (fun a b => urlKey cands a.url < urlKey cands b.url) :=
    (List.Pairwise.and hsorted hkeysne).imp (fun hab => lt_of_le_of_ne hab.1 hab.2)
  haveI : IsAntisymm Outcome (fun a b => urlKey cands a.url < urlKey cands b.url) :=
    ⟨fun a b h1 h2 => absurd h2 (Nat.lt_asymm h1)⟩
  exact List.eq_of_perm_of_sorted hps hstrict hcanon

/-- Under pairwise-distinct URLs and any completion permutation, the
engine computes exactly the capped dedup walk over the valid outcomes in
submission order: the completion order is canonicalised away. -/
theorem runKept_canonical (cands : List Cand) (fetch : Nat → FetchResult)
    (hashFn : List Nat → String) (min_bytes : Nat) (maxImages : Int) (order : List Nat)
    (hnd : (cands.map Prod.fst).Nodup)
    (hperm : order.Perm (List.range cands.length)) :
    runKept cands fetch hashFn min_bytes maxImages order =
      dedupLoop maxImages 0 [] (validOutcomes cands fetch hashFn min_bytes) := by
  rw [runKept]
  split_ifs with hc
  · have : cands = [] := List.isEmpty_iff.mp hc
    subst this
    rfl
  · rw [corePipeline, validOutcomes, outcomesOf,
      sortBySubmission_canonical _ _ _ hnd (fun i c => validate_single_url_url c _ _ _) hperm]

theorem dedupLoop_eq_take (maxImages : Int) :
    ∀ (l : List Outcome) (cnt : Nat) (seen : List String),
      dedupLoop maxImages cnt seen l = (dedupNoCap seen l).take (maxImages - cnt).toNat := by
  intro l
  induction l with
  | nil => intro cnt seen; simp [dedupLoop, dedupNoCap]
  | cons o rest ih =>
    intro cnt seen
    rcases ho : o.hash with _ | h <;> simp only [dedupLoop, dedupNoCap, ho]
    · split_ifs with h1
      · have : (maxImages - cnt).toNat = 0 := by omega
        rw [this, List.take_zero]
      · exact ih cnt seen
    · split_ifs with h1 h2 h2
      · have : (maxImages - cnt).toNat = 0 := by omega
        rw [this, List.take_zero]
      · have : (maxImages - cnt).toNat = 0 := by omega
        rw [this, List.take_zero]
      · have : (maxImages - cnt).toNat = (maxImages - (cnt + 1)).toNat + 1 := by omega
        rw [this, List.take_cons]
        · exact congrArg (o :: ·) (ih (cnt + 1) (h :: seen))
        · omega
      · exact ih cnt seen

theorem dedupNoCap_sublist : ∀ (l : List Outcome) (seen : List String),
    List.Sublist (dedupNoCap seen l) l := by
  intro l
  induction l with
  | nil => intro _; exact List.nil_sublist _
  | cons o rest ih =>
    intro seen
    rcases ho : o.hash with _ | h <;> simp only [dedupNoCap, ho]
    · exact List.Sublist.cons o (ih _)
    · split_ifs
      · exact List.Sublist.cons₂ o (ih _)
      · exact List.Sublist.cons o (ih _)

theorem dedupNoCap_hash : ∀ (l : List Outcome) (seen : List String),
    ∀ o ∈ dedupNoCap seen l, ∃ h, o.hash = some h ∧ h ≠ "" ∧ h ∉ seen := by
  intro l
  induction l with
  | nil => intro seen o ho; cases ho
  | cons a rest ih =>
    intro seen o ho
    rcases ha : a.hash with _ | h <;> simp only [dedupNoCap, ha] at ho
    · exact ih seen o ho
    · split_ifs at ho with hk
      · rcases List.mem_cons.mp ho with rfl | ho2
        · exact ⟨h, ha, hk.1, hk.2⟩
        · obtain ⟨h2, e, hne, hns⟩ := ih (h :: seen) o ho2
          exact ⟨h2, e, hne, fun hmem => hns (List.mem_cons_of_mem _ hmem)⟩
      · exact ih seen o ho

theorem dedupNoCap_pairwise_hash : ∀ (l : List Outcome) (seen : List String),
    List.Pairwise (fun a b => a.hash ≠ b.hash) (dedupNoCap seen l) := by
  intro l
  induction l with
  | nil => intro _; exact List.Pairwise.nil
  | cons a rest ih =>
    intro seen
    rcases ha : a.hash with _ | h <;> simp only [dedupNoCap, ha]
    · exact ih seen
    · split_ifs with hk
      · refine List.Pairwise.cons ?_ (ih (h :: seen))
        intro b hb hab
        obtain ⟨h2, e, _, hns⟩ := dedupNoCap_hash rest (h :: seen) b hb
        rw [ha, e] at hab
        injection hab with hab
        exact hns (hab ▸ List.mem_cons_self h seen)
      · exact ih seen

theorem dedupNoCap_min_key {cands : List Cand} :
    ∀ (l : List Outcome) (seen : List String),
      List.Pairwise (fun a b => urlKey cands a.url < urlKey cands b.url) l →
      ∀ o ∈ dedupNoCap seen l, ∀ o2 ∈ l, o2.hash = o.hash →
        urlKey cands o.url ≤ urlKey cands o2.url := by
  intro l
  induction l with
  | nil => intro seen _ o ho; cases ho
  | cons a rest ih =>
    intro seen hpw o ho o2 ho2 hhash
    have hpwtail := List.pairwise_cons.mp hpw
    rcases ha : a.hash with _ | h <;> simp only [dedupNoCap, ha] at ho
    · rcases List.mem_cons.mp ho2 with rfl | ho2r
      · obtain ⟨h2, e, _, _⟩ := dedupNoCap_hash rest seen o ho
        rw [ha, e] at hhash
        cases hhash
      · exact ih seen hpwtail.2 o ho o2 ho2r hhash
    · split_ifs at ho with hk
      · rcases List.mem_cons.mp ho with rfl | hor
        · rcases List.mem_cons.mp ho2 with rfl | ho2r
          · exact le_refl _
          · exact le_of_lt (hpwtail.1 o2 ho2r)
        · rcases List.mem_cons.mp ho2 with rfl | ho2r
          · obtain ⟨h2, e, _, hns⟩ := dedupNoCap_hash rest (h :: seen) o hor
            rw [e, ha] at hhash
            injection hhash with hh
            exact absurd (hh ▸ List.mem_cons_self h seen) (hh ▸ hns)
          · exact ih (h :: seen) hpwtail.2 o hor o2 ho2r hhash
      · rcases List.mem_cons.mp ho2 with rfl | ho2r
        · obtain ⟨h2, e, hne, hns⟩ := dedupNoCap_hash rest seen o ho
          rw [e, ha] at hhash
          injection hhash with hh
          subst hh
          exact absurd ⟨hne, hns⟩ hk
        · exact ih seen hpwtail.2 o ho o2 ho2r hhash

theorem dedupNoCap_covers : ∀ (l : List Outcome) (seen : List String),
    ∀ o2 ∈ l, ∀ h, o2.hash = some h → h ≠ "" → h ∉ seen →
      ∃ o ∈ dedupNoCap seen l, o.hash = some h := by
  intro l
  induction l with
  | nil => intro seen o2 ho2; cases ho2
  | cons a rest ih =>
    intro seen o2 ho2 h hh hne hns
    rcases ha : a.hash with _ | h1 <;> simp only [dedupNoCap, ha]
    · rcases List.mem_cons.mp ho2 with rfl | ho2r
      · rw [ha] at hh; cases hh
      · exact ih seen o2 ho2r h hh hne hns
    · split_ifs with hk
      · by_cases hcase : h = h1
        · exact ⟨a, List.mem_cons_self _ _, by rw [ha, hcase]⟩
        · rcases List.mem_cons.mp ho2 with rfl | ho2r
          · rw [ha] at hh
            injection hh with hh1
            exact absurd hh1.symm hcase
          · obtain ⟨o, homem, he⟩ := ih (h1 :: seen) o2 ho2r h hh hne
              (by simp [hcase, hns])
            exact ⟨o, List.mem_cons_of_mem _ homem, he⟩
      · rcases List.mem_cons.mp ho2 with rfl | ho2r
        · rw [ha] at hh
          injection hh with hh1
          subst hh1
          exact absurd ⟨hne, hns⟩ hk
        · exact ih seen o2 ho2r h hh hne hns

theorem dedupNoCap_length_ge {l sub : List Outcome} (hsub : List.Sublist sub l)
    (hdist : List.Pairwise (fun a b => a.hash ≠ b.hash) sub)
    (hhash : ∀ o ∈ sub, ∃ h, o.hash = some h ∧ h ≠ "") :
    sub.length ≤ (dedupNoCap [] l).length := by
  have h1 : (sub.map (fun o => o.hash)).Nodup := List.pairwise_map.mpr hdist
  have h2 : (sub.map (fun o => o.hash)) ⊆ ((dedupNoCap [] l).map (fun o => o.hash)) := by
    intro x hx
    obtain ⟨o, homem, rfl⟩ := List.mem_map.mp hx
    obtain ⟨h, he, hne⟩ := hhash o homem
    obtain ⟨o2, ho2, he2⟩ := dedupNoCap_covers l [] o (hsub.subset homem) h he hne
      (List.not_mem_nil h)
    exact List.mem_map.mpr ⟨o2, ho2, by rw [he2, he]⟩
  have h3 := (List.Nodup.subperm h1 h2).length_le
  rw [List.length_map, List.length_map] at h3
  exact h3

theorem submissionIdx_of_nodup {cands : List Cand} {i : Nat} {c : Cand}
    (hnd : (cands.map Prod.fst).Nodup) (hc : cands[i]? = some c) :
    submissionIdx cands c.1 = i := by
  have hi : i < (cands.map Prod.fst).length := by
    rw [List.length_map]
    by_contra hcon
    rw [List.getElem?_eq_none (le_of_not_lt hcon)] at hc
    cases hc
  have hmap : (cands.map Prod.fst)[i]? = some c.1 := by
    rw [List.getElem?_map, hc]
    rfl
  have he : (cands.map Prod.fst)[i] = c.1 := by
    have h2 := List.getElem?_eq_getElem hi
    rw [hmap] at h2
    injection h2 with h3
    exact h3.symm
  have h4 := List.indexOf_getElem hnd i hi
  rw [he] at h4
  exact h4

theorem outcomesWith_mem_elim {f : Nat → Cand → Outcome} {cands : List Cand}
    {o : Outcome} (ho : o ∈ outcomesWith f cands) :
    ∃ i c, cands[i]? = some c ∧ o = f i c := by
  obtain ⟨i, hi, hF⟩ := List.mem_map.mp ho
  rw [List.mem_range] at hi
  obtain ⟨c, hc⟩ : ∃ c, cands[i]? = some c := ⟨cands[i], List.getElem?_eq_getElem hi⟩
  refine ⟨i, c, hc, ?_⟩
  rw [← hF]
  simp only [hc]

theorem collectValid_subset {outs : List Outcome} {order : List Nat} {o : Outcome}
    (h : o ∈ collectValid outs order) : o ∈ outs := by
  obtain ⟨i, _, hf⟩ := List.mem_filterMap.mp h
  split at hf
  next o2 heq =>
    split_ifs at hf with hv <;>
      first
        | (cases hf; exact List.getElem?_mem heq)
        | cases hf
  next => cases hf

theorem validOutcomes_pairwise_key {cands : List Cand} {fetch : Nat → FetchResult}
    {hashFn : List Nat → String} {min_bytes : Nat}
    (hnd : (cands.map Prod.fst).Nodup) :
    List.Pairwise (fun a b => urlKey cands a.url < urlKey cands b.url)
      (validOutcomes cands fetch hashFn min_bytes) :=
  List.Pairwise.sublist (List.filter_sublist _)
    (outcomesWith_pairwise hnd (fun i c => validate_single_url_url c _ _ _))

theorem validOutcomes_key_eq {cands : List Cand} {fetch : Nat → FetchResult}
    {hashFn : List Nat → String} {min_bytes : Nat} {o : Outcome}
    (hnd : (cands.map Prod.fst).Nodup)
    (ho : o ∈ validOutcomes cands fetch hashFn min_bytes) :
    submissionIdx cands o.url = urlKey cands o.url := by
  have h1 : o ∈ outcomesOf cands fetch hashFn min_bytes :=
    (List.filter_sublist _).subset ho
  obtain ⟨i, c, hic, rfl⟩ := outcomesWith_mem_elim h1
  rw [validate_single_url_url, submissionIdx_of_nodup hnd hic, urlKey_of_nodup hnd hic]

/-- C1: for a candidate list with pairwise-distinct URLs and any
completion permutation of the underlying fetches, the kept entries of
the engine appear in strictly ascending submission-index order, and the
output of `validate_urls_parallel` coincides with the output under the
submission-order completion: it never depends on completion order. -/
theorem c1_order_preservation (cands : List Cand) (fetch : Nat → FetchResult)
    (hashFn : List Nat → String) (min_bytes : Nat) (maxImages : Int) (order : List Nat)
    (hnd : (cands.map Prod.fst).Nodup)
    (hperm : order.Perm (List.range cands.length)) :
    List.Pairwise (fun a b => submissionIdx cands a.url < submissionIdx cands b.url)
      (runKept cands fetch hashFn min_bytes maxImages order) ∧
    validate_urls_parallel cands fetch hashFn min_bytes maxImages order =
      validate_urls_parallel cands fetch hashFn min_bytes maxImages
        (List.range cands.length) := by
  have hcanonEq := runKept_canonical cands fetch hashFn min_bytes maxImages order hnd hperm
  constructor
  · have hsub : List.Sublist (runKept cands fetch hashFn min_bytes maxImages order)
        (validOutcomes cands fetch hashFn min_bytes) := by
      rw [hcanonEq]
      exact dedupLoop_sublist _ _ _ _
    have hpkept := List.Pairwise.sublist hsub (validOutcomes_pairwise_key hnd)
    refine List.Pairwise.imp_of_mem ?_ hpkept
    intro a b ha hb hlt
    rw [validOutcomes_key_eq hnd (hsub.subset ha), validOutcomes_key_eq hnd (hsub.subset hb)]
    exact hlt
  · rw [validate_urls_parallel, validate_urls_parallel, hcanonEq,
      runKept_canonical cands fetch hashFn min_bytes maxImages (List.range cands.length)
        hnd (List.Perm.refl _)]

/-- Closed witness for C1: two distinct-URL candidates completing in
reverse order are kept in submission order. -/
theorem c1_order_preservation_witness :
    ((([("a", []), ("b", [])] : List Cand).map Prod.fst).Nodup ∧
      List.Perm [1, 0] (List.range ([("a", []), ("b", [])] : List Cand).length)) ∧
    validate_urls_parallel [("a", []), ("b", [])]
        (fun i => FetchResult.ok ⟨200, "image", List.replicate (i + 1) 9⟩)
        (fun b => "h" ++ toString b.length) 0 5 [1, 0] =
      validate_urls_parallel [("a", []), ("b", [])]
        (fun i => FetchResult.ok ⟨200, "image", List.replicate (i + 1) 9⟩)
        (fun b => "h" ++ toString b.length) 0 5
        (List.range ([("a", []), ("b", [])] : List Cand).length) :=
  ⟨⟨by decide, by decide⟩,
    (c1_order_preservation [("a", []), ("b", [])]
      (fun i => FetchResult.ok ⟨200, "image", List.replicate (i + 1) 9⟩)
      (fun b => "h" ++ toString b.length) 0 5 [1, 0] (by decide) (by decide)).2⟩

/-- C3 (amended): for a candidate list with pairwise-distinct URLs, in
full-body mode no two entries of the engine output share a content
hash, and every kept entry occupies the minimal url_order position
among the valid outcomes bearing its hash, so of two distinct-URL
candidates whose fetches hash identically only the earlier-submitted
one appears. The all-URLs-distinct proviso is forced: if any URL recurs
later in the list, the url_order key of its earlier occurrence becomes
the last index and the later-submitted of two hash-equal candidates can
survive instead (see the counterexample). -/
theorem c3_dedup_invariant (cands : List Cand) (fetch : Nat → FetchResult)
    (hashFn : List Nat → String) (min_bytes : Nat) (maxImages : Int) (order : List Nat)
    (hnd : (cands.map Prod.fst).Nodup)
    (hperm : order.Perm (List.range cands.length)) :
    List.Pairwise (fun a b => a.hash ≠ b.hash)
      (runKept cands fetch hashFn min_bytes maxImages order) ∧
    ∀ o ∈ runKept cands fetch hashFn min_bytes maxImages order,
      ∀ o2 ∈ validOutcomes cands fetch hashFn min_bytes,
        o2.hash = o.hash → urlKey cands o.url ≤ urlKey cands o2.url := by
  have hcanonEq := runKept_canonical cands fetch hashFn min_bytes maxImages order hnd hperm
  have htake := dedupLoop_eq_take maxImages (validOutcomes cands fetch hashFn min_bytes) 0 []
  constructor
  · rw [hcanonEq, htake]
    exact List.Pairwise.sublist (List.take_sublist _ _) (dedupNoCap_pairwise_hash _ _)
  · intro o ho o2 ho2 hh
    rw [hcanonEq, htake] at ho
    have ho3 : o ∈ dedupNoCap [] (validOutcomes cands fetch hashFn min_bytes) :=
      (List.take_sublist _ _).subset ho
    exact dedupNoCap_min_key (validOutcomes cands fetch hashFn min_bytes) []
      (validOutcomes_pairwise_key hnd) o ho3 o2 ho2 hh

/-- Closed witness for C3: two distinct-URL candidates served identical
bodies hash identically and only the first survives. -/
theorem c3_dedup_invariant_witness :
    ((([("a", []), ("b", [])] : List Cand).map Prod.fst).Nodup ∧
      List.Perm [1, 0] (List.range ([("a", []), ("b", [])] : List Cand).length)) ∧
    List.Pairwise (fun a b => a.hash ≠ b.hash)
      (runKept [("a", []), ("b", [])] (fun _ => FetchResult.ok ⟨200, "image", [7]⟩)
        (fun _ => "h") 0 5 [1, 0]) :=
  ⟨⟨by decide, by decide⟩,
    (c3_dedup_invariant [("a", []), ("b", [])] (fun _ => FetchResult.ok ⟨200, "image", [7]⟩)
      (fun _ => "h") 0 5 [1, 0] (by decide) (by decide)).1⟩

/-- C3 counterexample refuting the unrestricted claim: in the list
[v, w, v] the candidates v (index 0) and w (index 1) have distinct URLs
and their fetches hash identically, while the third candidate (URL v
again) fails validation. The url_order dict maps v to its last index 2,
so the valid v outcome sorts after w, the dedup walk keeps w, and the
single output entry is the w candidate of submission index 1 — not the
lower-index v candidate the claim requires. -/
theorem c3_counterexample :
    validOutcomes [("v", []), ("w", []), ("v", [])]
        (fun i => if i = 2 then FetchResult.ok ⟨404, "image", [7]⟩
          else FetchResult.ok ⟨200, "image", [7]⟩) (fun _ => "h") 0 =
      [{ url := "v", valid := true, content := some [7], hash := some "h", meta := [] },
       { url := "w", valid := true, content := some [7], hash := some "h", meta := [] }] ∧
    runKept [("v", []), ("w", []), ("v", [])]
        (fun i => if i = 2 then FetchResult.ok ⟨404, "image", [7]⟩
          else FetchResult.ok ⟨200, "image", [7]⟩) (fun _ => "h") 0 5 [0, 1, 2] =
      [{ url := "w", valid := true, content := some [7], hash := some "h", meta := [] }] ∧
    ("v" : String) ≠ "w" := by decide

/-- C2 (amended): for a candidate list with pairwise-distinct URLs and
`max_images = K ≥ 1` the engine returns at most K entries; its kept
entries are a sublist of the valid outcomes in submission order, each
occupying the minimal url_order position among the valid outcomes with
its hash; and whenever at least K valid outcomes carry pairwise-distinct
(truthy) hashes, it returns exactly K entries, namely the K-prefix of
the greedy first-occurrence walk over the valid outcomes in submission
order — the K lowest-index valid distinct-hash candidates, in that
order. The distinct-URL proviso is forced: with a duplicated URL the
url_order dict keeps only the last index, equal sort keys leave the
stable sort in completion order, and the selection/order part fails
(see the counterexample). -/
theorem c2_cap_and_selection (cands : List Cand) (fetch : Nat → FetchResult)
    (hashFn : List Nat → String) (min_bytes : Nat) (order : List Nat) (K : Int)
    (hnd : (cands.map Prod.fst).Nodup)
    (hperm : order.Perm (List.range cands.length))
    (hK : 1 ≤ K) :
    (validate_urls_parallel cands fetch hashFn min_bytes K order).length ≤ K.toNat ∧
    List.Sublist (runKept cands fetch hashFn min_bytes K order)
      (validOutcomes cands fetch hashFn min_bytes) ∧
    (∀ o ∈ runKept cands fetch hashFn min_bytes K order,
      ∀ o2 ∈ validOutcomes cands fetch hashFn min_bytes,
        o2.hash = o.hash → urlKey cands o.url ≤ urlKey cands o2.url) ∧
    ((∃ sub, List.Sublist sub (validOutcomes cands fetch hashFn min_bytes) ∧
        K.toNat ≤ sub.length ∧
        List.Pairwise (fun a b => a.hash ≠ b.hash) sub ∧
        (∀ o ∈ sub, o.hash ≠ none ∧ o.hash ≠ some "")) →
      runKept cands fetch hashFn min_bytes K order =
        (dedupNoCap [] (validOutcomes cands fetch hashFn min_bytes)).take K.toNat ∧
      (runKept cands fetch hashFn min_bytes K order).length = K.toNat) := by
  have hcanonEq := runKept_canonical cands fetch hashFn min_bytes K order hnd hperm
  have htake := dedupLoop_eq_take K (validOutcomes cands fetch hashFn min_bytes) 0 []
  have hz : ((K : Int) - ((0 : Nat) : Int)).toNat = K.toNat := by omega
  have hkept : runKept cands fetch hashFn min_bytes K order =
      (dedupNoCap [] (validOutcomes cands fetch hashFn min_bytes)).take K.toNat := by
    rw [hcanonEq, htake, hz]
  refine ⟨?_, ?_, ?_, fun hsub => ⟨hkept, ?_⟩⟩
  · rw [validate_urls_parallel, List.length_map, hkept, List.length_take]
    omega
  · rw [hkept]
    exact (List.take_sublist _ _).trans (dedupNoCap_sublist _ _)
  · intro o ho o2 ho2 hh
    rw [hkept] at ho
    exact dedupNoCap_min_key (validOutcomes cands fetch hashFn min_bytes) []
      (validOutcomes_pairwise_key hnd) o ((List.take_sublist _ _).subset ho) o2 ho2 hh
  · obtain ⟨sub, hs1, hs2, hs3, hs4⟩ := hsub
    have hs4e : ∀ o ∈ sub, ∃ h, o.hash = some h ∧ h ≠ "" := by
      intro o ho
      rcases he : o.hash with _ | h
      · exact absurd he (hs4 o ho).1
      · exact ⟨h, rfl, fun hcon => (hs4 o ho).2 (by rw [he, hcon])⟩
    have hge : K.toNat ≤
        (dedupNoCap [] (validOutcomes cands fetch hashFn min_bytes)).length :=
      le_trans hs2 (dedupNoCap_length_ge hs1 hs3 hs4e)
    rw [hkept, List.length_take]
    omega

/-- Closed witness for C2: three all-valid candidates with distinct
hashes and `max_images = 2` yield exactly 2 entries. -/
theorem c2_cap_and_selection_witness :
    ((([("a", []), ("b", []), ("c", [])] : List Cand).map Prod.fst).Nodup ∧
      List.Perm [2, 0, 1] (List.range ([("a", []), ("b", []), ("c", [])] : List Cand).length) ∧
      (1 : Int) ≤ 2) ∧
    (runKept [("a", []), ("b", []), ("c", [])]
      (fun i => FetchResult.ok ⟨200, "image", List.replicate (i + 1) 9⟩)
      (fun b => "h" ++ toString b.length) 0 2 [2, 0, 1]).length = Int.toNat 2 :=
  ⟨⟨by decide, by decide, by decide⟩,
    ((c2_cap_and_selection [("a", []), ("b", []), ("c", [])]
      (fun i => FetchResult.ok ⟨200, "image", List.replicate (i + 1) 9⟩)
      (fun b => "h" ++ toString b.length) 0 [2, 0, 1] 2
      (by decide) (by decide) (by decide)).2.2.2
      ⟨validOutcomes [("a", []), ("b", []), ("c", [])]
        (fun i => FetchResult.ok ⟨200, "image", List.replicate (i + 1) 9⟩)
        (fun b => "h" ++ toString b.length) 0,
        List.Sublist.refl _, by decide, by decide, by decide⟩).2⟩

/-- C2 counterexample refuting the unrestricted claim: the duplicate-URL
list [v, v] (as `scrape_michael_kors` produces via its color variants)
has both candidates valid with distinct hashes and `max_images = 2`, yet
under the completion order [1, 0] the output lists the candidate of
submission index 1 (metadata i = 1) before the candidate of submission
index 0: the url_order dict keeps only the last index for the duplicated
URL, the equal sort keys leave the stable sort in completion order, and
the claimed lowest-index-first selection fails. -/
theorem c2_counterexample :
    List.Perm [1, 0] (List.range 2) ∧ (1 : Int) ≤ 2 ∧
    (runKept [("v", [("i", JVal.n 0)]), ("v", [("i", JVal.n 1)])]
        (fun i => FetchResult.ok ⟨200, "image", List.replicate (i + 1) 9⟩)
        (fun b => "h" ++ toString b.length) 0 2 [1, 0]).map (fun o => o.meta) =
      [[("i", JVal.n 1)], [("i", JVal.n 0)]] := by decide

/-- C9 (amended): every kept entry of the engine originates from an
input candidate, its serialised dict is an output entry, and the dict
carries every metadata binding unchanged; its "url" field equals the
candidate URL whenever the metadata does not itself bind the key "url"
(a metadata "url" binding overwrites the field). -/
theorem c9_metadata_passthrough (cands : List Cand) (fetch : Nat → FetchResult)
    (hashFn : List Nat → String) (min_bytes : Nat) (maxImages : Int) (order : List Nat)
    (hmeta : ∀ c ∈ cands, (c.2.map Prod.fst).Nodup) :
    ∀ o ∈ runKept cands fetch hashFn min_bytes maxImages order,
      ((o.url, o.meta) ∈ cands) ∧
      imageDict o ∈ validate_urls_parallel cands fetch hashFn min_bytes maxImages order ∧
      (∀ kv ∈ o.meta, dictGet (imageDict o) kv.1 = some kv.2) ∧
      ("url" ∉ o.meta.map Prod.fst → dictGet (imageDict o) "url" = some (JVal.s o.url)) := by
  intro o ho
  have hmem : (o.url, o.meta) ∈ cands := by
    rw [runKept] at ho
    split_ifs at ho with hc
    · cases ho
    · have h1 : o ∈ sortBySubmission cands
          (collectValid (outcomesOf cands fetch hashFn min_bytes) order) :=
        (dedupLoop_sublist _ _ _ _).subset ho
      have h2 := mem_sortBySubmission.mp h1
      have h3 : o ∈ outcomesOf cands fetch hashFn min_bytes := collectValid_subset h2
      obtain ⟨i, c, hic, rfl⟩ := outcomesWith_mem_elim h3
      rw [validate_single_url_url, validate_single_url_meta]
      exact List.getElem?_mem hic
  refine ⟨hmem, List.mem_map.mpr ⟨o, ho, rfl⟩, ?_, ?_⟩
  · intro kv hkv
    obtain ⟨k, v⟩ := kv
    exact dictGet_dictUpdate_of_mem _ _ k v (hmeta (o.url, o.meta) hmem) hkv
  · intro hnu
    rw [imageDict, dictGet_dictUpdate_of_notMem _ _ _ hnu]
    simp [dictGet]

/-- Closed witness for C9 (amended): a single surviving candidate with
one metadata binding appears in the output with its candidate pair
intact. -/
theorem c9_metadata_passthrough_witness :
    (∀ c ∈ ([("u", [("k", JVal.s "v")])] : List Cand), (c.2.map Prod.fst).Nodup) ∧
    ((Outcome.mk "u" true (some [1]) (some "h") [("k", JVal.s "v")]).url,
      (Outcome.mk "u" true (some [1]) (some "h") [("k", JVal.s "v")]).meta) ∈
      ([("u", [("k", JVal.s "v")])] : List Cand) :=
  ⟨by decide,
    (c9_metadata_passthrough [("u", [("k", JVal.s "v")])]
      (fun _ => FetchResult.ok ⟨200, "image", [1]⟩) (fun _ => "h") 0 5 [0]
      (by decide) (Outcome.mk "u" true (some [1]) (some "h") [("k", JVal.s "v")])
      (by decide)).1⟩

/-- C9 counterexample: a candidate whose metadata itself binds "url"
(to "x") survives, and the dict field "url" of the output entry is "x",
not the candidate URL "u", refuting the unrestricted claim. -/
theorem c9_counterexample :
    (validate_urls_parallel [("u", [("url", JVal.s "x")])]
        (fun _ => FetchResult.ok ⟨200, "image", [1]⟩) (fun _ => "h") 0 5 [0]).map
      (fun d => dictGet d "url") = [some (JVal.s "x")] ∧
    JVal.s "x" ≠ JVal.s "u" := by decide
